import Mathlib

/-!
Verification of the PyBox repository (two command-line utilities):
ReFileSerial/ReSerial.py (a batch renamer that remaps leading numeric
serials in filenames by reversal plus an offset) and
ReFileTime/ReTime.py (a file-timestamp editor).

Filenames and other strings are modelled as `List Char`.  Timestamps
(Python floats at second granularity as produced by `time.mktime`) are
modelled as `Int`; only equality with `0.0` (Python truthiness) matters
to the code.  Python's `strptime`-plus-`mktime` parsing is an external
library facility and is modelled as an explicit parameter
`parse : List Char → Option Int` (`none` models the `ValueError` raised
by `strptime` on a string that does not match the format).

The module-level configuration constants of the scripts (pad width,
connector, prefix string, base serial, separator list) are passed as
explicit arguments; the values hard-coded in the source are defined as
constants where a claim refers to them.
-/

namespace PyBox

/-! ## Decimal rendering and reading of numbers

`decVal` models reading a decimal digit string (Python `int(s)` on the
digits captured by the regex); `decStr` models Python's decimal
rendering of a non-negative integer (as in `f-string` formatting).
-/

def digitVal (c : Char) : Nat := c.toNat - 48

def decVal (l : List Char) : Nat := l.foldl (fun a c => 10 * a + digitVal c) 0

def digitChar (d : Nat) : Char := Char.ofNat (48 + d)

def decStrAux : Nat → Nat → List Char
  | 0, _ => []
  | fuel + 1, n =>
    if n < 10 then [digitChar n] else decStrAux fuel (n / 10) ++ [digitChar (n % 10)]

def decStr (n : Nat) : List Char := decStrAux (n + 1) n

/-! ## Python `str.strip` and `os.path.splitext` -/

/-- ASCII whitespace as removed by Python's `str.strip()`. -/
def isSpace (c : Char) : Bool :=
  c == ' ' || c == '\t' || c == '\n' || c == '\r' || c == '\x0b' || c == '\x0c'

/-- Python `s.strip()`: drop whitespace from both ends. -/
def stripChars (l : List Char) : List Char :=
  ((l.dropWhile isSpace).reverse.dropWhile isSpace).reverse

/--
Python `os.path.splitext` restricted to plain filenames (no path
separators, which is the case for every name returned by `os.listdir`):
split at the last dot, except that a name consisting only of leading
dots before that position has no extension.
-/
def splitext (s : List Char) : List Char × List Char :=
  match ((List.range s.length).filter (fun i => s.getD i ' ' == '.')).getLast? with
  | none => (s, [])
  | some di =>
    if (s.take di).any (fun c => c != '.') then (s.take di, s.drop di) else (s, [])

/-! ## Filename classifier (ReSerial.py, `is_sequence_file`)

The source matches `name_without_ext` against the dynamically built
regular expression `^(\d+)[{separators}]+(.*)$` (with `re.IGNORECASE`,
which is irrelevant to this pattern).  Because the configured separator
characters are neither decimal digits nor `'\n'`, regex backtracking
never helps and the match is equivalent to a maximal-munch scan:
group 1 is the maximal leading digit run, the separator run after it is
maximal, and group 2 is the rest — except that Python's `.` does not
match `'\n'` and `$` also matches just before a final `'\n'`, so the
match fails if the rest contains an inner newline, and a final newline
is excluded from group 2.  `\d` is modelled as the ASCII decimal digits.
-/

def reMatch (seps : List Char) (s : List Char) : Option (List Char × List Char) :=
  let d := s.takeWhile (fun c => c.isDigit)
  let r1 := s.dropWhile (fun c => c.isDigit)
  let sp := r1.takeWhile (fun c => decide (c ∈ seps))
  let r := r1.dropWhile (fun c => decide (c ∈ seps))
  if d.isEmpty then none
  else if sp.isEmpty then none
  else if r.dropLast.any (fun c => c == '\n') then none
  else some (d, if r.getLast? == some '\n' then r.dropLast else r)

/-- The configured `SEPARATORS` constant of ReSerial.py. -/
def SEPARATORS : List Char := ['.', '、', ' ']

/--
`is_sequence_file` from ReSerial.py (with the separator list, a module
configuration constant, made an explicit argument): split off the
extension, match the serial pattern, and return
`(matched, serial, trimmed content, extension)`.  The function is total
(the source's `try/except` around the regex never fires, and the
`isdigit` re-check of group 1 always passes since `\d`-matched
characters are digits).
-/
def is_sequence_file (seps : List Char) (filename : List Char) :
    Bool × Option Nat × Option (List Char) × List Char :=
  match reMatch seps (splitext filename).1 with
  | some (d, r) => (true, some (decVal d), some (stripChars r), (splitext filename).2)
  | none => (false, none, none, (splitext filename).2)

/-- The structural condition under which the source's regular expression
`^(\d+)[seps]+(.*)$` matches a name (with Python's newline semantics for
`.` and `$`). -/
def MatchCond (seps : List Char) (s : List Char) : Prop :=
  ∃ d sp r, s = d ++ sp ++ r ∧ d ≠ [] ∧ (∀ c ∈ d, c.isDigit) ∧
    sp ≠ [] ∧ (∀ c ∈ sp, c ∈ seps) ∧ (∀ c ∈ r.take 1, c ∉ seps) ∧
    (∀ c ∈ r.dropLast, c ≠ '\n')

/-! ## Serial remap engine (ReSerial.py, `main`, steps 1-4)

The source computes `unique_serials = sorted(list(set(...)))`, reverses
it, and builds the dict `serial_reverse_map[original] = BASE_SERIAL +
reversed_serial` by zipping the sorted list with its reverse.  The dict
is modelled as an association list consulted with `List.lookup`.
-/

def serialReverseMap (B : Int) (U : List Nat) : List (Nat × Int) :=
  (U.zip U.reverse).map (fun p => (p.1, B + (p.2 : Int)))

/-- `sorted(list(set(serials)))`: the ascending list of distinct serials. -/
def uniqueSerials (serials : List Nat) : List Nat :=
  List.insertionSort (· ≤ ·) serials.dedup

/-- One classified file of the renamer (the dict built in step 2 of `main`). -/
structure SeqFile where
  old_path : List Char
  serial_num : Nat
  content : List Char
  ext : List Char
deriving DecidableEq

def buildMap (B : Int) (serials : List Nat) : List (Nat × Int) :=
  serialReverseMap B (uniqueSerials serials)

/-- Step 4 of `main`: attach `final_serial = serial_reverse_map[serial_num]`
to every classified file. -/
def attachFinals (B : Int) (fs : List SeqFile) : List (SeqFile × Int) :=
  let m := buildMap B (fs.map SeqFile.serial_num)
  fs.map (fun f => (f, (m.lookup f.serial_num).getD 0))

/-! ## Rename executor (ReSerial.py, `main`, step 5)

`formatSerial` models Python's `f"{v:0{W}d}"` (zero-padded decimal; a
negative value carries its sign inside the width).  `candName k` is the
candidate filename tried with disambiguation counter `k` (`k = 0` is the
plain composed name, `k ≥ 1` appends `(k)` before the extension exactly
as the source's loop body does).  `chooseName` is the source's
`while os.path.exists(...)` loop; it is given fuel, and the executor
runs it with fuel `|existing| + 1`, which is proved sufficient below.
The directory is modelled as the list of names currently present;
`os.rename` removes the old name and adds the chosen one.
-/

def padZeros (l : List Char) (w : Nat) : List Char :=
  List.replicate (w - l.length) '0' ++ l

def formatSerial (v : Int) (w : Nat) : List Char :=
  if v < 0 then '-' :: padZeros (decStr v.natAbs) (w - 1) else padZeros (decStr v.toNat) w

def candName (pfx fm conn content ext : List Char) (k : Nat) : List Char :=
  (pfx ++ fm ++ conn ++ content) ++
    (if k = 0 then ext else '(' :: (decStr k ++ (')' :: ext)))

def chooseName (S : List (List Char)) (cand : Nat → List Char) :
    Nat → Nat → Option (List Char)
  | 0, _ => none
  | fuel + 1, k =>
    if cand k ∈ S then chooseName S cand fuel (k + 1) else some (cand k)

/-- One iteration of the rename loop: pick a collision-free candidate
name and perform the rename (`os.rename` drops the old name from the
directory and adds the new one). -/
def renameStep (pfx conn : List Char) (pad : Nat) (S : List (List Char))
    (e : SeqFile × Int) : List (List Char) × Option (List Char) :=
  let fm := formatSerial e.2 pad
  match chooseName S (candName pfx fm conn e.1.content e.1.ext) (S.length + 1) 0 with
  | some nm => ((S.erase e.1.old_path) ++ [nm], some nm)
  | none => (S, none)

def runRenames (pfx conn : List Char) (pad : Nat) :
    List (List Char) → List (SeqFile × Int) →
    List (List Char) × List (List Char × List Char)
  | S, [] => (S, [])
  | S, e :: es =>
    match renameStep pfx conn pad S e with
    | (S2, some nm) =>
      let rest := runRenames pfx conn pad S2 es
      (rest.1, (e.1.old_path, nm) :: rest.2)
    | (S2, none) =>
      runRenames pfx conn pad S2 es

/-! ## Whole renamer pipeline (ReSerial.py, `main`) -/

/-- The configuration surface of ReSerial.py (its module-level constants). -/
structure Config where
  pad : Nat
  conn : List Char
  pfxStr : List Char
  base : Int
  seps : List Char
deriving DecidableEq

/-- Step 2 of `main`: classify every directory entry (directories are
assumed already excluded, as the source skips them before classifying). -/
def classifyAll (seps : List Char) (listing : List (List Char)) : List SeqFile :=
  listing.filterMap (fun nm =>
    match is_sequence_file seps nm with
    | (true, some s, some c, e) => some ⟨nm, s, c, e⟩
    | _ => none)

structure RunResult where
  uniques : List Nat
  revs : List Nat
  mapping : List (Nat × Int)
  renames : List (List Char × List Char)
  finalState : List (List Char)
deriving DecidableEq

/-- `main` of ReSerial.py on a directory listing: classify, build the
reversal map, attach final serials, and execute the renames.  Returns
`none` when no file matches (the source prints a message and exits). -/
def runMain (cfg : Config) (listing : List (List Char)) : Option RunResult :=
  let files := classifyAll cfg.seps listing
  if files = [] then none
  else
    let uniques := uniqueSerials (files.map SeqFile.serial_num)
    let m := serialReverseMap cfg.base uniques
    let withFinals := files.map (fun f => (f, (m.lookup f.serial_num).getD 0))
    let r := runRenames cfg.pfxStr cfg.conn cfg.pad listing withFinals
    some ⟨uniques, uniques.reverse, m, r.2, r.1⟩

/-! ## Timestamp editor (ReFileTime/ReTime.py)

The filesystem state relevant to `modify_file_times` is the target
file's presence, whether it is a regular file, and its timestamp triple.
`platform.system()` is a `Platform` argument; `time.time()` is the
`now` argument; `strptime`/`mktime` is the `parse` argument (see the
module comment).  The result is `(error?, resulting timestamps, warned)`
where `warned` records whether the creation-time warning was printed;
on an error the timestamps are the unchanged originals.
-/

structure FileTimes where
  ctime : Int
  mtime : Int
  atime : Int
deriving DecidableEq

structure FileState where
  present : Bool
  isFile : Bool
  times : FileTimes
deriving DecidableEq

inductive Platform where
  | windows
  | posixLike
deriving DecidableEq

inductive RtError where
  | fileNotFound
  | isADirectory
  | invalidTimeFormat (msg : List Char)
deriving DecidableEq

/-- Head of the message of the `ValueError` re-raised by
`convert_to_timestamp` (the source's Chinese template up to the embedded
format string). -/
def msgHead : List Char := ['时', '间', '格', '式', '错', '误', '！', '请', '按', '照', ' ']

/-- Tail of the same message after the format string (the trailing
`strptime` detail is elided, it does not affect any claim). -/
def msgTail : List Char := [' ', '格', '式', '输', '入']

def timeFormatErrMsg (fmt : List Char) : List Char := msgHead ++ fmt ++ msgTail

/-- `convert_to_timestamp` of ReTime.py: parse a time string, re-raising
a parse failure as a `ValueError` whose message embeds the expected
format. -/
def convert_to_timestamp (parse : List Char → Option Int) (fmt s : List Char) :
    Except RtError Int :=
  match parse s with
  | some v => Except.ok v
  | none => Except.error (RtError.invalidTimeFormat (timeFormatErrMsg fmt))

/-- The source's `convert_to_timestamp(t, fmt) if t else None`: `None`
and the empty string are falsy and skip parsing entirely. -/
def parseOpt (parse : List Char → Option Int) (fmt : List Char)
    (s : Option (List Char)) : Except RtError (Option Int) :=
  match s with
  | none => Except.ok none
  | some str =>
    if str.isEmpty then Except.ok none
    else (convert_to_timestamp parse fmt str).map some

/-- Python truthiness applied to an optional timestamp:
`x if x else d` — both `None` and a value equal to `0.0` fall back. -/
def applyOr (t : Option Int) (d : Int) : Int :=
  match t with
  | some v => if v = 0 then d else v
  | none => d

/-- Python truthiness of an optional timestamp (`if new_create_ts:`). -/
def optTruthy (t : Option Int) : Bool :=
  match t with
  | some v => v != 0
  | none => false

/-- `modify_file_times` of ReTime.py.  Returns
`(error?, timestamps after the call, creation-warning printed?)`. -/
def modify_file_times (plat : Platform) (parse : List Char → Option Int)
    (now : Int) (file : FileState)
    (create_time modify_time access_time : Option (List Char))
    (fmt : List Char) : Option RtError × FileTimes × Bool :=
  if !file.present then (some RtError.fileNotFound, file.times, false)
  else if !file.isFile then (some RtError.isADirectory, file.times, false)
  else
    match parseOpt parse fmt create_time with
    | Except.error e => (some e, file.times, false)
    | Except.ok nc =>
      match parseOpt parse fmt modify_time with
      | Except.error e => (some e, file.times, false)
      | Except.ok nm =>
        match parseOpt parse fmt access_time with
        | Except.error e => (some e, file.times, false)
        | Except.ok na =>
          match plat with
          | Platform.windows =>
            let t := file.times
            (none, ⟨applyOr nc t.ctime, applyOr nm t.mtime, applyOr na t.atime⟩, false)
          | Platform.posixLike =>
            (none, ⟨file.times.ctime, applyOr nm now, applyOr na now⟩, optTruthy nc)

/-! ## Concrete data for the worked example (claim about the sample run) -/

def exampleCfg : Config :=
  ⟨3, ['.', ' '], ['N', 'o', '.'], 0, ['.', ' ']⟩

def nmIntro : List Char := ['1', '.', 'I', 'n', 't', 'r', 'o', '.', 't', 'x', 't']

def nmOutro : List Char := ['1', '.', 'O', 'u', 't', 'r', 'o', '.', 't', 'x', 't']

def nmMiddle : List Char := ['3', ' ', 'M', 'i', 'd', 'd', 'l', 'e', '.', 't', 'x', 't']

def outIntro : List Char :=
  ['N', 'o', '.', '0', '0', '3', '.', ' ', 'I', 'n', 't', 'r', 'o', '.', 't', 'x', 't']

def outOutro : List Char :=
  ['N', 'o', '.', '0', '0', '3', '.', ' ', 'O', 'u', 't', 'r', 'o', '.', 't', 'x', 't']

def outMiddle : List Char :=
  ['N', 'o', '.', '0', '0', '1', '.', ' ', 'M', 'i', 'd', 'd', 'l', 'e', '.', 't', 'x', 't']

/-! ## Concrete inputs used by witnesses -/

def wOld : List Char := ['N', 'o', '.', '0', '0', '3', '.', ' ', 'A', '.', 't', 'x', 't']

def wState : List (List Char) := [wOld]

def wEntry : SeqFile × Int := (⟨wOld, 3, ['A'], ['.', 't', 'x', 't']⟩, 3)

def wfA : SeqFile := ⟨nmIntro, 1, ['I', 'n', 't', 'r', 'o'], ['.', 't', 'x', 't']⟩

def wfB : SeqFile := ⟨nmOutro, 1, ['O', 'u', 't', 'r', 'o'], ['.', 't', 'x', 't']⟩

/-! # Theorems -/

/-! ## Decimal rendering -/

theorem digitVal_digitChar : ∀ d < 10, digitVal (digitChar d) = d := by decide

theorem decVal_append_singleton (l : List Char) (c : Char) :
    decVal (l ++ [c]) = 10 * decVal l + digitVal c := by
  simp [decVal, List.foldl_append]

theorem decVal_decStrAux : ∀ fuel n, n < fuel → decVal (decStrAux fuel n) = n := by
  intro fuel
  induction fuel with
  | zero => intro n h; omega
  | succ f ih =>
    intro n h
    by_cases h10 : n < 10
    · simp only [decStrAux, if_pos h10, decVal, List.foldl_cons, List.foldl_nil]
      simpa using digitVal_digitChar n h10
    · have hdiv : n / 10 < f := by
        have h1 : n / 10 < n := Nat.div_lt_self (by omega) (by omega)
        omega
      simp only [decStrAux, if_neg h10]
      rw [decVal_append_singleton, ih _ hdiv, digitVal_digitChar _ (Nat.mod_lt n (by omega))]
      omega

theorem decVal_decStr (n : Nat) : decVal (decStr n) = n :=
  decVal_decStrAux (n + 1) n (Nat.lt_succ_self n)

theorem decStr_injective : ∀ m n : Nat, decStr m = decStr n → m = n := by
  intro m n h
  have := congrArg decVal h
  rwa [decVal_decStr, decVal_decStr] at this

/-! ## Characterisation of the regex match -/

theorem takeWhile_dropWhile_decomp {α : Type} (p : α → Bool) :
    ∀ (d rest : List α), (∀ c ∈ d, p c) → (∀ c ∈ rest.take 1, ¬ p c) →
      (d ++ rest).takeWhile p = d ∧ (d ++ rest).dropWhile p = rest := by
  intro d
  induction d with
  | nil =>
    intro rest _ h2
    cases rest with
    | nil => simp
    | cons r rs =>
      have hr : ¬ p r := h2 r (by simp)
      simp [List.takeWhile_cons, List.dropWhile_cons, hr]
  | cons a d ih =>
    intro rest h1 h2
    have ha : p a := h1 a (by simp)
    have hrec := ih rest (fun c hc => h1 c (by simp [hc])) h2
    simp [List.takeWhile_cons, List.dropWhile_cons, ha, hrec.1, hrec.2]

theorem mem_takeWhile_pred {α : Type} (p : α → Bool) :
    ∀ (l : List α), ∀ c ∈ l.takeWhile p, p c := by
  intro l
  induction l with
  | nil => simp
  | cons a l ih =>
    intro c hc
    rw [List.takeWhile_cons] at hc
    by_cases ha : p a
    · simp only [if_pos ha, List.mem_cons] at hc
      rcases hc with h | h
      · rwa [h]
      · exact ih c h
    · simp [if_neg ha] at hc

theorem head_dropWhile_not {α : Type} (p : α → Bool) :
    ∀ (l : List α), ∀ c ∈ (l.dropWhile p).take 1, ¬ p c := by
  intro l
  induction l with
  | nil => simp
  | cons a l ih =>
    intro c hc
    rw [List.dropWhile_cons] at hc
    by_cases ha : p a
    · exact ih c (by simpa [if_pos ha] using hc)
    · simp only [if_neg ha, List.take, List.mem_singleton] at hc
      rwa [hc]

/-- If `r` ends in a newline, stripping whitespace ignores that newline. -/
theorem stripChars_of_getLast_newline (r : List Char) (h : r.getLast? = some '\n') :
    stripChars r = stripChars r.dropLast := by
  have hne : r ≠ [] := by intro he; rw [he] at h; simp at h
  have hlast : r.getLast hne = '\n' := by
    have h2 := List.getLast?_eq_getLast r hne
    rw [h2] at h
    exact Option.some_inj.mp h
  have hr : r.dropLast ++ ['\n'] = r := by
    have h2 := List.dropLast_append_getLast hne
    rwa [hlast] at h2
  conv_lhs => rw [← hr]
  rw [stripChars, stripChars]
  by_cases hb : (r.dropLast.dropWhile isSpace).isEmpty
  · rw [List.dropWhile_append, if_pos hb]
    rw [List.isEmpty_iff] at hb
    rw [hb]
    simp [isSpace]
  · rw [List.dropWhile_append, if_neg hb, List.reverse_append]
    have hnl : isSpace '\n' = true := by decide
    simp [List.dropWhile_cons, hnl]

theorem reMatch_eq_some (seps : List Char) (hsd : ∀ c ∈ seps, ¬ c.isDigit)
    (d sp r : List Char) (hd : d ≠ []) (hdd : ∀ c ∈ d, c.isDigit)
    (hsp : sp ≠ []) (hss : ∀ c ∈ sp, c ∈ seps)
    (hr : ∀ c ∈ r.take 1, c ∉ seps) (hnl : ∀ c ∈ r.dropLast, c ≠ '\n') :
    reMatch seps (d ++ sp ++ r) =
      some (d, if r.getLast? == some '\n' then r.dropLast else r) := by
  have hstep1 := takeWhile_dropWhile_decomp (fun c => c.isDigit) d (sp ++ r)
    hdd
    (by
      intro c hc
      cases sp with
      | nil => exact absurd rfl hsp
      | cons a as =>
        simp only [List.cons_append, List.take, List.mem_singleton] at hc
        rw [hc]
        exact hsd a (hss a (by simp)))
  have hstep2 := takeWhile_dropWhile_decomp (fun c => decide (c ∈ seps)) sp r
    (by intro c hc; simpa using hss c hc)
    (by intro c hc; simpa using hr c hc)
  have hany : r.dropLast.any (fun c => c == '\n') = false := by
    rw [List.any_eq_false]
    intro c hc
    simpa using hnl c hc
  rw [reMatch]
  simp only [List.append_assoc, hstep1.1, hstep1.2, hstep2.1, hstep2.2, hany]
  simp [List.isEmpty_iff, hd, hsp]

theorem matchCond_of_reMatch_some (seps : List Char) (s : List Char)
    (p : List Char × List Char) (h : reMatch seps s = some p) : MatchCond seps s := by
  rw [reMatch] at h
  by_cases hd : (s.takeWhile (fun c => c.isDigit)).isEmpty
  · simp [hd] at h
  by_cases hsp : ((s.dropWhile (fun c => c.isDigit)).takeWhile
      (fun c => decide (c ∈ seps))).isEmpty
  · simp [hd, hsp] at h
  by_cases hnl : ((s.dropWhile (fun c => c.isDigit)).dropWhile
      (fun c => decide (c ∈ seps))).dropLast.any (fun c => c == '\n')
  · simp [hd, hsp, hnl] at h
  refine ⟨s.takeWhile (fun c => c.isDigit),
    (s.dropWhile (fun c => c.isDigit)).takeWhile (fun c => decide (c ∈ seps)),
    (s.dropWhile (fun c => c.isDigit)).dropWhile (fun c => decide (c ∈ seps)),
    ?_, ?_, ?_, ?_, ?_, ?_, ?_⟩
  · rw [List.append_assoc, List.takeWhile_append_dropWhile,
      List.takeWhile_append_dropWhile]
  · simpa [List.isEmpty_iff] using hd
  · exact mem_takeWhile_pred _ s
  · simpa [List.isEmpty_iff] using hsp
  · intro c hc; simpa using mem_takeWhile_pred _ _ c hc
  · intro c hc; simpa using head_dropWhile_not _ _ c hc
  · intro c hc
    rw [Bool.not_eq_true, List.any_eq_false] at hnl
    simpa using hnl c hc

/-! ## Remap engine lemmas -/

theorem getElem_idx_congr {α : Type} (l : List α) (a b : Nat) (hab : a = b)
    (ha : a < l.length) (hb : b < l.length) : l[a] = l[b] := by
  subst hab; rfl

theorem lookup_zip_map (B : Int) :
    ∀ (U V : List Nat) (i : Nat) (hi : i < U.length) (hv : i < V.length),
      U.Nodup →
      ((U.zip V).map (fun p => (p.1, B + (p.2 : Int)))).lookup U[i] =
        some (B + (V[i] : Int)) := by
  intro U
  induction U with
  | nil => intro V i hi; simp at hi
  | cons u us ih =>
    intro V i hi hv hnd
    cases V with
    | nil => simp at hv
    | cons v vs =>
      cases i with
      | zero => simp [List.lookup]
      | succ i =>
        have hus : i < us.length := by simpa using hi
        have hne : (us[i] == u) = false := by
          rw [List.nodup_cons] at hnd
          have hmem : us[i] ∈ us := List.getElem_mem hus
          rw [beq_eq_false_iff_ne]
          intro he
          exact hnd.1 (he ▸ hmem)
        simp only [List.zip_cons_cons, List.map_cons, List.getElem_cons_succ,
          List.lookup, hne]
        exact ih vs i hus (by simpa using hv) (List.nodup_cons.mp hnd).2

theorem lookup_serialReverseMap (B : Int) (U : List Nat) (hnd : U.Nodup)
    (i : Nat) (hi : i < U.length) :
    (serialReverseMap B U).lookup U[i] =
      some (B + (U[U.length - 1 - i] : Int)) := by
  rw [serialReverseMap, lookup_zip_map B U U.reverse i hi (by simpa using hi) hnd]
  rw [List.getElem_reverse]

theorem lookup_keys_some :
    ∀ (l : List (Nat × Int)) (k : Nat), k ∈ l.map Prod.fst →
      ∃ v, l.lookup k = some v := by
  intro l
  induction l with
  | nil => simp
  | cons e es ih =>
    intro k hk
    by_cases he : (k == e.1)
    · exact ⟨e.2, by simp [List.lookup, he]⟩
    · have : k ∈ es.map Prod.fst := by
        simp only [List.map_cons, List.mem_cons] at hk
        rcases hk with h | h
        · exact absurd (beq_iff_eq.mpr h) he
        · exact h
      obtain ⟨v, hv⟩ := ih k this
      refine ⟨v, ?_⟩
      rw [Bool.not_eq_true] at he
      simp [List.lookup, he, hv]

theorem mem_keys_serialReverseMap (B : Int) (U : List Nat) :
    (serialReverseMap B U).map Prod.fst = U := by
  rw [serialReverseMap, List.map_map]
  have : (Prod.fst ∘ fun p : Nat × Nat => (p.1, B + (p.2 : Int))) = Prod.fst := by
    funext p; rfl
  rw [this, List.map_fst_zip]
  simp

theorem mem_uniqueSerials_of_mem (s : Nat) (l : List Nat) (h : s ∈ l) :
    s ∈ uniqueSerials l := by
  rw [uniqueSerials]
  exact (List.perm_insertionSort (· ≤ ·) l.dedup).mem_iff.mpr (List.mem_dedup.mpr h)

/-! ## Rename-loop lemmas -/

theorem decStr_ne_nil (n : Nat) : decStr n ≠ [] := by
  rw [decStr, decStrAux]
  by_cases h : n < 10
  · simp [h]
  · simp [h]

theorem candName_injective (pfx fm conn content ext : List Char) :
    ∀ i j, candName pfx fm conn content ext i = candName pfx fm conn content ext j →
      i = j := by
  have key : ∀ j, j ≠ 0 →
      ext ≠ '(' :: (decStr j ++ (')' :: ext)) := by
    intro j hj he
    have := congrArg List.length he
    simp [List.length_cons, List.length_append] at this
    omega
  intro i j h
  rw [candName, candName] at h
  have h2 := List.append_cancel_left h
  by_cases hi : i = 0 <;> by_cases hj : j = 0
  · rw [hi, hj]
  · rw [if_pos hi, if_neg hj] at h2
    exact absurd h2 (key j hj)
  · rw [if_neg hi, if_pos hj] at h2
    exact absurd h2.symm (key i hi)
  · rw [if_neg hi, if_neg hj] at h2
    have h3 : decStr i ++ (')' :: ext) = decStr j ++ (')' :: ext) := by
      injection h2
    have hlen : (decStr i).length = (decStr j).length := by
      have := congrArg List.length h3
      simp [List.length_append] at this
      omega
    exact decStr_injective i j (List.append_inj_left h3 hlen)

theorem exists_free_name (S : List (List Char)) (cand : Nat → List Char)
    (hinj : ∀ i j, cand i = cand j → i = j) :
    ∃ m, m < S.length + 1 ∧ cand m ∉ S := by
  by_contra hno
  push_neg at hno
  have hnd : ((List.range (S.length + 1)).map cand).Nodup :=
    (List.nodup_range _).map (fun a b hab => hinj a b hab)
  have h1 : ((List.range (S.length + 1)).map cand).toFinset.card = S.length + 1 := by
    rw [List.toFinset_card_of_nodup hnd, List.length_map, List.length_range]
  have h2 : ((List.range (S.length + 1)).map cand).toFinset ⊆ S.toFinset := by
    intro x hx
    rw [List.mem_toFinset] at hx ⊢
    obtain ⟨i, hi, hix⟩ := List.mem_map.mp hx
    rw [← hix]
    exact hno i (List.mem_range.mp hi)
  have h3 := Finset.card_le_card h2
  have h4 := S.toFinset_card_le
  omega

theorem chooseName_spec (S : List (List Char)) (cand : Nat → List Char) :
    ∀ (fuel k : Nat), (∀ j < k, cand j ∈ S) →
      (∃ m, k ≤ m ∧ m < k + fuel ∧ cand m ∉ S) →
      ∃ m, chooseName S cand fuel k = some (cand m) ∧ cand m ∉ S ∧
        ∀ j < m, cand j ∈ S := by
  intro fuel
  induction fuel with
  | zero =>
    rintro k _ ⟨m, h1, h2, _⟩
    omega
  | succ f ih =>
    rintro k hk ⟨m, hm1, hm2, hm3⟩
    by_cases hc : cand k ∈ S
    · have hki : ∀ j < k + 1, cand j ∈ S := by
        intro j hj
        rcases Nat.lt_succ_iff_lt_or_eq.mp hj with h | h
        · exact hk j h
        · rw [h]; exact hc
      have hex : ∃ m2, k + 1 ≤ m2 ∧ m2 < (k + 1) + f ∧ cand m2 ∉ S := by
        refine ⟨m, ?_, by omega, hm3⟩
        rcases Nat.eq_or_lt_of_le hm1 with h | h
        · exact absurd hc (h ▸ hm3)
        · omega
      obtain ⟨m2, he, hf, hj⟩ := ih (k + 1) hki hex
      refine ⟨m2, ?_, hf, hj⟩
      rw [chooseName, if_pos hc]
      exact he
    · refine ⟨k, ?_, hc, hk⟩
      rw [chooseName, if_neg hc]

/-- The rename executor always finds a collision-free name within
`|existing| + 1` attempts, and it picks the first free candidate. -/
theorem renameStep_choice (pfx conn : List Char) (pad : Nat)
    (S : List (List Char)) (e : SeqFile × Int) :
    ∃ m, renameStep pfx conn pad S e =
        ((S.erase e.1.old_path) ++
          [candName pfx (formatSerial e.2 pad) conn e.1.content e.1.ext m],
         some (candName pfx (formatSerial e.2 pad) conn e.1.content e.1.ext m)) ∧
      candName pfx (formatSerial e.2 pad) conn e.1.content e.1.ext m ∉ S ∧
      ∀ j < m, candName pfx (formatSerial e.2 pad) conn e.1.content e.1.ext j ∈ S := by
  obtain ⟨m0, hm0, hfree⟩ := exists_free_name S
    (candName pfx (formatSerial e.2 pad) conn e.1.content e.1.ext)
    (candName_injective pfx (formatSerial e.2 pad) conn e.1.content e.1.ext)
  obtain ⟨m, heq, hfm, hj⟩ := chooseName_spec S
    (candName pfx (formatSerial e.2 pad) conn e.1.content e.1.ext)
    (S.length + 1) 0 (by omega) ⟨m0, by omega, by omega, hfree⟩
  refine ⟨m, ?_, hfm, hj⟩
  rw [renameStep]
  simp only [heq]

/-! ## Timestamp-editor lemmas -/

theorem parseOpt_error_eq (parse : List Char → Option Int) (fmt : List Char)
    (s : Option (List Char)) (e : RtError)
    (h : parseOpt parse fmt s = Except.error e) :
    e = RtError.invalidTimeFormat (timeFormatErrMsg fmt) := by
  cases s with
  | none => simp [parseOpt] at h
  | some str =>
    rw [parseOpt] at h
    by_cases hstr : str.isEmpty
    · simp [hstr] at h
    · rw [if_neg hstr, convert_to_timestamp] at h
      cases hps : parse str with
      | some v => rw [hps] at h; simp [Except.map] at h
      | none =>
        rw [hps] at h
        simp [Except.map] at h
        exact h.symm

theorem parseOpt_fails (parse : List Char → Option Int) (fmt str : List Char)
    (h1 : str ≠ []) (h2 : parse str = none) :
    parseOpt parse fmt (some str) =
      Except.error (RtError.invalidTimeFormat (timeFormatErrMsg fmt)) := by
  rw [parseOpt, if_neg (by simpa [List.isEmpty_iff] using h1), convert_to_timestamp, h2]
  rfl

/-! # Claim theorems -/

/--
C1: for every strictly ascending list of distinct serials `U` and every
integer base `B`, the remap table `M` built by the renamer
(`M[U[i]] = B + U[n-1-i]`) satisfies
`M[U[i]] + M[U[n-1-i]] = 2B + U[i] + U[n-1-i]` for every index `i`, and
`M` is a bijection from `U` onto its image (injective on `U`).
-/
theorem claim_C1 (B : Int) (U : List Nat) (hU : List.Pairwise (· < ·) U)
    (i j : Nat) (hi : i < U.length) (hj : j = U.length - 1 - i) :
    (∃ a b : Int,
      (serialReverseMap B U).lookup U[i] = some a ∧
      (serialReverseMap B U).lookup U[j] = some b ∧
      a + b = 2 * B + (U[i] : Int) + (U[j] : Int)) ∧
    (∀ x ∈ U, ∀ y ∈ U,
      (serialReverseMap B U).lookup x = (serialReverseMap B U).lookup y → x = y) := by
  have hnd : U.Nodup := hU.imp (fun h => Nat.ne_of_lt h)
  have hjlt : j < U.length := by omega
  constructor
  · refine ⟨B + ((U[j] : Nat) : Int), B + ((U[i] : Nat) : Int), ?_, ?_, by ring⟩
    · rw [lookup_serialReverseMap B U hnd i hi]
      rw [getElem_idx_congr U (U.length - 1 - i) j hj.symm (by omega) hjlt]
    · rw [lookup_serialReverseMap B U hnd j hjlt]
      rw [getElem_idx_congr U (U.length - 1 - j) i (by omega) (by omega) hi]
  · intro x hx y hy hxy
    obtain ⟨ix, hixl, hxe⟩ := List.mem_iff_getElem.mp hx
    obtain ⟨iy, hiyl, hye⟩ := List.mem_iff_getElem.mp hy
    rw [← hxe, ← hye] at hxy
    rw [lookup_serialReverseMap B U hnd ix hixl,
      lookup_serialReverseMap B U hnd iy hiyl] at hxy
    have hval : U[U.length - 1 - ix] = U[U.length - 1 - iy] := by
      have := Option.some_inj.mp hxy
      exact_mod_cast add_left_cancel this
    have hidx : U.length - 1 - ix = U.length - 1 - iy :=
      (hnd.getElem_inj_iff).mp hval
    have hxy2 : ix = iy := by omega
    rw [← hxe, ← hye]
    exact getElem_idx_congr U ix iy hxy2 hixl hiyl

/--
C1 witness: the symmetry and injectivity statement instantiated at
`U = [1, 3]`, `B = 0`, `i = 0`.
-/
theorem claim_C1_witness :
    List.Pairwise (fun a b : Nat => a < b) [1, 3] ∧
    ((∃ a b : Int,
        (serialReverseMap 0 [1, 3]).lookup 1 = some a ∧
        (serialReverseMap 0 [1, 3]).lookup 3 = some b ∧
        a + b = 2 * 0 + 1 + 3) ∧
      (∀ x ∈ [1, 3], ∀ y ∈ [1, 3],
        (serialReverseMap 0 [1, 3]).lookup x = (serialReverseMap 0 [1, 3]).lookup y →
          x = y)) :=
  ⟨by decide, by simpa using claim_C1 0 [1, 3] (by decide) 0 1 (by decide) (by decide)⟩

/--
C2: for every filename whose name-without-extension decomposes as a
non-empty digit prefix, a non-empty run of configured separators (the
configured separators are not digits), and a remainder that neither
starts with a separator nor contains an inner newline, the classifier
returns `(true, value of the digit prefix, whitespace-trimmed remainder,
extension)`; for every filename whose name-without-extension admits no
such decomposition it returns `(false, none, none, extension)`.  The
classifier is a total function, so it never raises.
-/
theorem claim_C2 (seps : List Char) (hsd : ∀ c ∈ seps, ¬ c.isDigit) (f : List Char) :
    (∀ d sp r : List Char, (splitext f).1 = d ++ sp ++ r → d ≠ [] →
      (∀ c ∈ d, c.isDigit) → sp ≠ [] → (∀ c ∈ sp, c ∈ seps) →
      (∀ c ∈ r.take 1, c ∉ seps) → (∀ c ∈ r.dropLast, c ≠ '\n') →
      is_sequence_file seps f =
        (true, some (decVal d), some (stripChars r), (splitext f).2)) ∧
    (¬ MatchCond seps (splitext f).1 →
      is_sequence_file seps f = (false, none, none, (splitext f).2)) := by
  constructor
  · intro d sp r hdec hd hdd hsp hss hr hnl
    have hm := reMatch_eq_some seps hsd d sp r hd hdd hsp hss hr hnl
    rw [is_sequence_file, hdec, hm]
    by_cases hln : r.getLast? = some '\n'
    · have hbeq : (r.getLast? == some '\n') = true := beq_iff_eq.mpr hln
      rw [hbeq]
      simp [stripChars_of_getLast_newline r hln]
    · have hbeq : (r.getLast? == some '\n') = false := by
        rw [beq_eq_false_iff_ne]
        exact hln
      rw [hbeq]
      rfl
  · intro hnm
    rw [is_sequence_file]
    cases h : reMatch seps (splitext f).1 with
    | none => rfl
    | some p => exact absurd (matchCond_of_reMatch_some seps _ p h) hnm

/--
C2 witness: the classifier on `1.Intro.txt` with the configured
separator set.
-/
theorem claim_C2_witness :
    (∀ c ∈ SEPARATORS, ¬ c.isDigit) ∧
    is_sequence_file SEPARATORS nmIntro =
      (true, some 1, some ['I', 'n', 't', 'r', 'o'], ['.', 't', 'x', 't']) :=
  ⟨by decide, by
    have h := (claim_C2 SEPARATORS (by decide) nmIntro).1
      ['1'] ['.'] ['I', 'n', 't', 'r', 'o']
      (by decide) (by decide) (by decide) (by decide) (by decide) (by decide) (by decide)
    exact h.trans (by decide)⟩

/--
C3: if an entry's composed candidate name already exists, the executor
never overwrites it: it tries disambiguation suffixes `(1)`, `(2)`, ...
in order and renames to the first candidate not present in the existing
set, which is distinct from every existing name.
-/
theorem claim_C3 (pfx conn : List Char) (pad : Nat) (S : List (List Char))
    (e : SeqFile × Int)
    (hcoll : candName pfx (formatSerial e.2 pad) conn e.1.content e.1.ext 0 ∈ S) :
    ∃ k, 1 ≤ k ∧
      (renameStep pfx conn pad S e).2 =
        some (candName pfx (formatSerial e.2 pad) conn e.1.content e.1.ext k) ∧
      candName pfx (formatSerial e.2 pad) conn e.1.content e.1.ext k ∉ S ∧
      ∀ j, 1 ≤ j → j < k →
        candName pfx (formatSerial e.2 pad) conn e.1.content e.1.ext j ∈ S := by
  obtain ⟨m, hstep, hfree, hall⟩ := renameStep_choice pfx conn pad S e
  refine ⟨m, ?_, ?_, hfree, fun j _ h2 => hall j h2⟩
  · rcases Nat.eq_zero_or_pos m with h | h
    · exact absurd hcoll (h ▸ hfree)
    · exact h
  · rw [hstep]

/--
C3 witness: a directory already containing exactly the composed
candidate name; the executor picks the `(1)` variant.
-/
theorem claim_C3_witness :
    candName ['N', 'o', '.'] (formatSerial wEntry.2 3) ['.', ' ']
      wEntry.1.content wEntry.1.ext 0 ∈ wState ∧
    (∃ k, 1 ≤ k ∧
      (renameStep ['N', 'o', '.'] ['.', ' '] 3 wState wEntry).2 =
        some (candName ['N', 'o', '.'] (formatSerial wEntry.2 3) ['.', ' ']
          wEntry.1.content wEntry.1.ext k) ∧
      candName ['N', 'o', '.'] (formatSerial wEntry.2 3) ['.', ' ']
        wEntry.1.content wEntry.1.ext k ∉ wState ∧
      ∀ j, 1 ≤ j → j < k →
        candName ['N', 'o', '.'] (formatSerial wEntry.2 3) ['.', ' ']
          wEntry.1.content wEntry.1.ext j ∈ wState) :=
  ⟨by decide, claim_C3 ['N', 'o', '.'] ['.', ' '] 3 wState wEntry (by decide)⟩

/--
C4: on a directory containing exactly `1.Intro.txt`, `1.Outro.txt` and
`3 Middle.txt`, with separators `['.', ' ']`, base 0, pad width 3,
prefix `No.` and connector `". "`, the pipeline finds distinct serials
`[1, 3]`, reverses them to `[3, 1]`, builds the map `{1 : 3, 3 : 1}`,
and renames the files to `No.003. Intro.txt`, `No.003. Outro.txt` and
`No.001. Middle.txt` (no disambiguation suffix is needed: the two
candidate names with serial 003 differ in their remainder).
-/
theorem claim_C4 :
    runMain exampleCfg [nmIntro, nmOutro, nmMiddle] =
      some ⟨[1, 3], [3, 1], [(1, 3), (3, 1)],
        [(nmIntro, outIntro), (nmOutro, outOutro), (nmMiddle, outMiddle)],
        [outIntro, outOutro, outMiddle]⟩ := by
  decide

/--
C8: in the remap phase, every classified file's serial has an entry in
the remap table, the attached final serial is exactly the table's value
`M[s]`, and any two files sharing an original serial receive the same
final serial.
-/
theorem claim_C8 (B : Int) (fs : List SeqFile) :
    (∀ f ∈ fs, ∃ v,
      (buildMap B (fs.map SeqFile.serial_num)).lookup f.serial_num = some v) ∧
    (∀ p ∈ attachFinals B fs,
      (buildMap B (fs.map SeqFile.serial_num)).lookup p.1.serial_num = some p.2) ∧
    (∀ p ∈ attachFinals B fs, ∀ q ∈ attachFinals B fs,
      p.1.serial_num = q.1.serial_num → p.2 = q.2) := by
  have key : ∀ f ∈ fs, ∃ v,
      (buildMap B (fs.map SeqFile.serial_num)).lookup f.serial_num = some v := by
    intro f hf
    apply lookup_keys_some
    rw [buildMap, mem_keys_serialReverseMap]
    exact mem_uniqueSerials_of_mem _ _ (List.mem_map_of_mem SeqFile.serial_num hf)
  refine ⟨key, ?_, ?_⟩
  · intro p hp
    obtain ⟨f, hf, hfe⟩ := List.mem_map.mp (by simpa [attachFinals] using hp)
    obtain ⟨v, hv⟩ := key f hf
    rw [← hfe]
    simp [hv]
  · intro p hp q hq hpq
    obtain ⟨f, hf, hfe⟩ := List.mem_map.mp (by simpa [attachFinals] using hp)
    obtain ⟨g, hg, hge⟩ := List.mem_map.mp (by simpa [attachFinals] using hq)
    rw [← hfe, ← hge]
    rw [← hfe, ← hge] at hpq
    simp only at hpq ⊢
    rw [hpq]

/--
C8 witness: two files both carrying serial 1 receive the same final
serial, which is the remap table's entry for 1.
-/
theorem claim_C8_witness :
    (wfA, (1 : Int)) ∈ attachFinals 0 [wfA, wfB] ∧
    (wfB, (1 : Int)) ∈ attachFinals 0 [wfA, wfB] ∧
    (buildMap 0 ([wfA, wfB].map SeqFile.serial_num)).lookup wfA.serial_num = some 1 ∧
    (1 : Int) = 1 :=
  ⟨by decide, by decide,
    (claim_C8 0 [wfA, wfB]).2.1 (wfA, 1) (by decide),
    (claim_C8 0 [wfA, wfB]).2.2 (wfA, 1) (by decide) (wfB, 1) (by decide) (by decide)⟩

/--
C10: when the composed candidate name equals the entry's own current
name, the file is not left unchanged: the candidate exists (as the file
itself), so the disambiguation loop fires and the entry is renamed to
the candidate with the smallest suffix `(k)`, `k ≥ 1`, that does not
exist; the chosen name differs from the file's current name.
-/
theorem claim_C10 (pfx conn : List Char) (pad : Nat) (S : List (List Char))
    (e : SeqFile × Int) (hold : e.1.old_path ∈ S)
    (hself : candName pfx (formatSerial e.2 pad) conn e.1.content e.1.ext 0 =
      e.1.old_path) :
    ∃ k, 1 ≤ k ∧
      renameStep pfx conn pad S e =
        ((S.erase e.1.old_path) ++
          [candName pfx (formatSerial e.2 pad) conn e.1.content e.1.ext k],
         some (candName pfx (formatSerial e.2 pad) conn e.1.content e.1.ext k)) ∧
      candName pfx (formatSerial e.2 pad) conn e.1.content e.1.ext k ∉ S ∧
      candName pfx (formatSerial e.2 pad) conn e.1.content e.1.ext k ≠ e.1.old_path ∧
      ∀ j, 1 ≤ j → j < k →
        candName pfx (formatSerial e.2 pad) conn e.1.content e.1.ext j ∈ S := by
  obtain ⟨m, hstep, hfree, hall⟩ := renameStep_choice pfx conn pad S e
  have hm1 : 1 ≤ m := by
    rcases Nat.eq_zero_or_pos m with h | h
    · rw [h, hself] at hfree
      exact absurd hold hfree
    · exact h
  refine ⟨m, hm1, hstep, hfree, ?_, fun j _ h2 => hall j h2⟩
  intro he
  rw [he] at hfree
  exact hfree hold

/--
C10 witness: a file already named exactly like its composed candidate
name is renamed to the `(1)` variant.
-/
theorem claim_C10_witness :
    wEntry.1.old_path ∈ wState ∧
    candName ['N', 'o', '.'] (formatSerial wEntry.2 3) ['.', ' ']
      wEntry.1.content wEntry.1.ext 0 = wEntry.1.old_path ∧
    (∃ k, 1 ≤ k ∧
      renameStep ['N', 'o', '.'] ['.', ' '] 3 wState wEntry =
        ((wState.erase wEntry.1.old_path) ++
          [candName ['N', 'o', '.'] (formatSerial wEntry.2 3) ['.', ' ']
            wEntry.1.content wEntry.1.ext k],
         some (candName ['N', 'o', '.'] (formatSerial wEntry.2 3) ['.', ' ']
            wEntry.1.content wEntry.1.ext k)) ∧
      candName ['N', 'o', '.'] (formatSerial wEntry.2 3) ['.', ' ']
        wEntry.1.content wEntry.1.ext k ∉ wState ∧
      candName ['N', 'o', '.'] (formatSerial wEntry.2 3) ['.', ' ']
        wEntry.1.content wEntry.1.ext k ≠ wEntry.1.old_path ∧
      ∀ j, 1 ≤ j → j < k →
        candName ['N', 'o', '.'] (formatSerial wEntry.2 3) ['.', ' ']
          wEntry.1.content wEntry.1.ext j ∈ wState) :=
  ⟨by decide, by decide,
    claim_C10 ['N', 'o', '.'] ['.', ' '] 3 wState wEntry (by decide) (by decide)⟩

/--
C5 counterexample: on Windows with only a creation-time string provided
whose parsed value is POSIX timestamp 0, the creation time is NOT set to
the parsed value — the file's original creation time (5) is kept, so the
claim's "substitutes the provided value" fails at this input (the frame
part, modification and access unchanged, still holds).
-/
theorem claim_C5_counterexample :
    modify_file_times Platform.windows (fun _ => some 0) 100 ⟨true, true, ⟨5, 6, 7⟩⟩
      (some ['x']) none none ['f'] = (none, ⟨5, 6, 7⟩, false) ∧ (5 : Int) ≠ 0 := by
  constructor
  · decide
  · decide

/--
C5 (amended): on Windows, for an existing regular file, when only a
creation-time string is provided and it parses to a 'non-zero' timestamp,
the parsed value is substituted for the creation time and the
modification and access times keep their pre-call values (a value
parsing to exactly 0 is treated as absent by Python truthiness and the
original creation time is kept instead).
-/
theorem claim_C5_amended (parse : List Char → Option Int) (now : Int)
    (file : FileState) (s fmt : List Char) (v : Int)
    (hp : file.present = true) (hf : file.isFile = true)
    (hs : s ≠ []) (hv : parse s = some v) (hnz : v ≠ 0) :
    modify_file_times Platform.windows parse now file (some s) none none fmt =
      (none, ⟨v, file.times.mtime, file.times.atime⟩, false) := by
  have hpo : parseOpt parse fmt (some s) = Except.ok (some v) := by
    rw [parseOpt, if_neg (by simpa [List.isEmpty_iff] using hs), convert_to_timestamp, hv]
    rfl
  rw [modify_file_times, hp, hf]
  simp only [Bool.not_true, Bool.false_eq_true, if_false, hpo]
  simp [parseOpt, applyOr, hnz]

/--
C5 witness: creation string parsing to 7 on a file with timestamps
(1, 2, 3): only the creation time changes.
-/
theorem claim_C5_witness :
    (['x'] : List Char) ≠ [] ∧ (7 : Int) ≠ 0 ∧
    modify_file_times Platform.windows (fun _ => some 7) 100 ⟨true, true, ⟨1, 2, 3⟩⟩
      (some ['x']) none none ['f'] = (none, ⟨7, 2, 3⟩, false) :=
  ⟨by decide, by decide,
    claim_C5_amended (fun _ => some 7) 100 ⟨true, true, ⟨1, 2, 3⟩⟩ ['x'] ['f'] 7
      rfl rfl (by decide) rfl (by decide)⟩

/--
C6 counterexample: the empty string is a provided time string that does
not parse (strptime raises on it), yet no error is raised — Python
truthiness skips parsing it — and on the limited platform the call then
mutates the modification and access times to the current time.
-/
theorem claim_C6_counterexample :
    modify_file_times Platform.posixLike (fun _ => none) 100 ⟨true, true, ⟨1, 2, 3⟩⟩
      (some []) none none ['f'] = (none, ⟨1, 100, 100⟩, false) ∧
    (⟨1, 100, 100⟩ : FileTimes) ≠ ⟨1, 2, 3⟩ := by
  constructor
  · decide
  · decide

/--
C6 (amended): for every call on an existing regular file in which some
provided 'non-empty' time string does not parse under the configured
format, an `InvalidTimeFormat` error is raised whose message includes
the expected format, before any filesystem mutation, and the file's
timestamps are unchanged (an empty provided string is treated as absent
and never parsed; a missing or non-file target raises its own error
first).
-/
theorem claim_C6_amended (plat : Platform) (parse : List Char → Option Int)
    (now : Int) (file : FileState) (c m a : Option (List Char)) (fmt : List Char)
    (hp : file.present = true) (hf : file.isFile = true)
    (hfail : (∃ s, c = some s ∧ s ≠ [] ∧ parse s = none) ∨
             (∃ s, m = some s ∧ s ≠ [] ∧ parse s = none) ∨
             (∃ s, a = some s ∧ s ≠ [] ∧ parse s = none)) :
    modify_file_times plat parse now file c m a fmt =
      (some (RtError.invalidTimeFormat (timeFormatErrMsg fmt)), file.times, false) ∧
    timeFormatErrMsg fmt = msgHead ++ fmt ++ msgTail := by
  refine ⟨?_, rfl⟩
  rw [modify_file_times, hp, hf]
  simp only [Bool.not_true, Bool.false_eq_true, if_false]
  cases he1 : parseOpt parse fmt c with
  | error e1 => rw [parseOpt_error_eq parse fmt c e1 he1]
  | ok nc =>
    cases he2 : parseOpt parse fmt m with
    | error e2 => rw [parseOpt_error_eq parse fmt m e2 he2]
    | ok nm =>
      cases he3 : parseOpt parse fmt a with
      | error e3 => rw [parseOpt_error_eq parse fmt a e3 he3]
      | ok na =>
        exfalso
        rcases hfail with ⟨s, hcs, hne, hpn⟩ | ⟨s, hcs, hne, hpn⟩ | ⟨s, hcs, hne, hpn⟩
        · rw [hcs, parseOpt_fails parse fmt s hne hpn] at he1
          exact Except.noConfusion he1
        · rw [hcs, parseOpt_fails parse fmt s hne hpn] at he2
          exact Except.noConfusion he2
        · rw [hcs, parseOpt_fails parse fmt s hne hpn] at he3
          exact Except.noConfusion he3

/--
C6 witness: a non-empty unparsable creation string on an existing file
raises `InvalidTimeFormat` with the format in the message, timestamps
unchanged.
-/
theorem claim_C6_witness :
    (⟨true, true, ⟨1, 2, 3⟩⟩ : FileState).present = true ∧
    modify_file_times Platform.posixLike (fun _ => none) 100 ⟨true, true, ⟨1, 2, 3⟩⟩
      (some ['x']) none none ['f'] =
      (some (RtError.invalidTimeFormat (timeFormatErrMsg ['f'])),
        (⟨true, true, ⟨1, 2, 3⟩⟩ : FileState).times, false) :=
  ⟨rfl,
    (claim_C6_amended Platform.posixLike (fun _ => none) 100 ⟨true, true, ⟨1, 2, 3⟩⟩
      (some ['x']) none none ['f'] rfl rfl
      (Or.inl ⟨['x'], rfl, by decide, rfl⟩)).1⟩

/--
C7 counterexample: on the limited platform a provided creation-time
value parsing to POSIX timestamp 0 is ignored with NO warning surfaced
(the code's truthiness test `if new_create_ts:` is false for 0.0),
contradicting the claim that a warning accompanies every provided
creation-time value.
-/
theorem claim_C7_counterexample :
    modify_file_times Platform.posixLike (fun _ => some 0) 100 ⟨true, true, ⟨1, 2, 3⟩⟩
      (some ['x']) none none ['f'] = (none, ⟨1, 100, 100⟩, false) ∧
    (modify_file_times Platform.posixLike (fun _ => some 0) 100 ⟨true, true, ⟨1, 2, 3⟩⟩
      (some ['x']) none none ['f']).2.2 ≠ true := by
  constructor
  · decide
  · decide

/--
C7 (amended): on the limited (non-Windows) platform, for an existing
regular file whose provided time strings all parse, the call succeeds,
creation time is never modified, a warning is surfaced exactly when the
provided creation value parses to a 'non-zero' timestamp (a creation
value parsing to 0, or an empty creation string, is ignored silently),
and each of modification and access time is set to the provided value
when it parses to a non-zero timestamp and to the current time
otherwise.
-/
theorem claim_C7_amended (parse : List Char → Option Int) (now : Int)
    (file : FileState) (c m a : Option (List Char)) (fmt : List Char)
    (nc nm na : Option Int) (r : Option RtError × FileTimes × Bool)
    (hp : file.present = true) (hf : file.isFile = true)
    (hc : parseOpt parse fmt c = Except.ok nc)
    (hm : parseOpt parse fmt m = Except.ok nm)
    (ha : parseOpt parse fmt a = Except.ok na)
    (hr : r = modify_file_times Platform.posixLike parse now file c m a fmt) :
    r.1 = none ∧
    r.2.1.ctime = file.times.ctime ∧
    (∀ v : Int, nm = some v → v ≠ 0 → r.2.1.mtime = v) ∧
    ((nm = none ∨ nm = some 0) → r.2.1.mtime = now) ∧
    (∀ v : Int, na = some v → v ≠ 0 → r.2.1.atime = v) ∧
    ((na = none ∨ na = some 0) → r.2.1.atime = now) ∧
    (r.2.2 = true ↔ ∃ v : Int, nc = some v ∧ v ≠ 0) := by
  subst hr
  rw [modify_file_times, hp, hf]
  simp only [Bool.not_true, Bool.false_eq_true, if_false, hc, hm, ha]
  refine ⟨trivial, trivial, ?_, ?_, ?_, ?_, ?_⟩
  · intro v hv hnz
    rw [hv]
    simp [applyOr, hnz]
  · rintro (h | h) <;> rw [h] <;> simp [applyOr]
  · intro v hv hnz
    rw [hv]
    simp [applyOr, hnz]
  · rintro (h | h) <;> rw [h] <;> simp [applyOr]
  · cases nc with
    | none => simp [optTruthy]
    | some v =>
      by_cases hv : v = 0
      · simp [optTruthy, hv]
      · simp [optTruthy, hv]

/--
C7 witness: creation and modification provided (parsing to 7), access
absent: modification becomes 7, access becomes the current time, the
creation warning is surfaced.
-/
theorem claim_C7_witness :
    ((none, ⟨1, 7, 100⟩, true) : Option RtError × FileTimes × Bool).2.1.mtime = 7 ∧
    ((none, ⟨1, 7, 100⟩, true) : Option RtError × FileTimes × Bool).2.2 = true := by
  have h := claim_C7_amended (fun _ => some 7) 100 ⟨true, true, ⟨1, 2, 3⟩⟩
    (some ['x']) (some ['y']) none ['f'] (some 7) (some 7) none
    ((none, ⟨1, 7, 100⟩, true)) rfl rfl rfl rfl rfl (by decide)
  exact ⟨h.2.2.1 7 rfl (by decide), h.2.2.2.2.2.2.mpr ⟨7, rfl, by decide⟩⟩

/--
C9: a provided time string parsing to POSIX timestamp 0 is treated
exactly as absent because absence is tested by numeric truthiness: on
Windows the file's original timestamps are kept instead of 0 being
applied, on the limited platform the current time is substituted for
modification and access, and no creation-time warning is printed.
-/
theorem claim_C9 (parse : List Char → Option Int) (now : Int) (file : FileState)
    (s fmt : List Char)
    (hp : file.present = true) (hf : file.isFile = true)
    (hs : s ≠ []) (h0 : parse s = some 0) :
    modify_file_times Platform.windows parse now file (some s) (some s) (some s) fmt =
      (none, file.times, false) ∧
    modify_file_times Platform.posixLike parse now file (some s) (some s) (some s) fmt =
      (none, ⟨file.times.ctime, now, now⟩, false) := by
  have hpo : parseOpt parse fmt (some s) = Except.ok (some 0) := by
    rw [parseOpt, if_neg (by simpa [List.isEmpty_iff] using hs), convert_to_timestamp, h0]
    rfl
  constructor
  · rw [modify_file_times, hp, hf]
    simp [hpo, applyOr]
  · rw [modify_file_times, hp, hf]
    simp [hpo, applyOr, optTruthy]

/--
C9 witness: strings parsing to 0 on a file with timestamps (1, 2, 3):
on Windows nothing changes; on the limited platform modification and
access become the current time (100) with no warning.
-/
theorem claim_C9_witness :
    modify_file_times Platform.windows (fun _ => some 0) 100 ⟨true, true, ⟨1, 2, 3⟩⟩
      (some ['x']) (some ['x']) (some ['x']) ['f'] = (none, ⟨1, 2, 3⟩, false) ∧
    modify_file_times Platform.posixLike (fun _ => some 0) 100 ⟨true, true, ⟨1, 2, 3⟩⟩
      (some ['x']) (some ['x']) (some ['x']) ['f'] = (none, ⟨1, 100, 100⟩, false) :=
  claim_C9 (fun _ => some 0) 100 ⟨true, true, ⟨1, 2, 3⟩⟩ ['x'] ['f'] rfl rfl
    (by decide) rfl

end PyBox
